import Mathlib

/-!
Verification of the Minesweeper deduction engine (`minesweeper.py`,
classes `Sentence` and `MinesweeperAI`) against its design document.

Shallow embedding: Python sets of board cells become `Finset Cell`,
Python integers become `ℤ`, and every mutating method becomes a pure
state transformer returning the updated value.  Where Python iterates
over a set (whose iteration order the language leaves unspecified), the
embedding iterates over the canonically sorted list of the set's
elements; every iterated body below is order-independent over distinct
cells, so any iteration order yields the same final state.
-/

abbrev Cell : Type := ℕ × ℕ

/-- Linear-order relation used to enumerate a Python set of cells in a
definite (lexicographic) order. -/
def cellLE (a b : Cell) : Prop := a.1 < b.1 ∨ (a.1 = b.1 ∧ a.2 ≤ b.2)

instance : DecidableRel cellLE := fun a b => by
  unfold cellLE; infer_instance

instance : IsTrans Cell cellLE := ⟨by
  intro a b c h1 h2; unfold cellLE at h1 h2 ⊢; omega⟩

instance : IsAntisymm Cell cellLE := ⟨by
  intro a b h1 h2
  unfold cellLE at h1 h2
  have h3 : a.1 = b.1 ∧ a.2 = b.2 := by omega
  exact Prod.ext h3.1 h3.2⟩

instance : IsTotal Cell cellLE := ⟨by
  intro a b; unfold cellLE; omega⟩

/-- Ordered insertion of a cell into a list, by structural recursion so
that the kernel can evaluate it on concrete inputs. -/
def insertSorted (c : Cell) : List Cell → List Cell
  | [] => [c]
  | x :: xs => if cellLE c x then c :: x :: xs else x :: insertSorted c xs

lemma cellLE_antisymm {a b : Cell} (h1 : cellLE a b) (h2 : cellLE b a) : a = b := by
  unfold cellLE at h1 h2
  exact Prod.ext (by omega) (by omega)

lemma cellLE_total (a b : Cell) : cellLE a b ∨ cellLE b a := by
  unfold cellLE
  omega

instance : LeftCommutative insertSorted := by
  refine ⟨fun a b l => ?_⟩
  induction l with
  | nil =>
      simp only [insertSorted]
      by_cases hab : cellLE a b
      · by_cases hba : cellLE b a
        · have h := cellLE_antisymm hab hba
          subst h
          rfl
        · rw [if_pos hab, if_neg hba]
      · have hba : cellLE b a := (cellLE_total a b).resolve_left hab
        rw [if_neg hab, if_pos hba]
  | cons x xs ih =>
      simp only [insertSorted]
      by_cases hbx : cellLE b x <;> by_cases hax : cellLE a x
      · rw [if_pos hbx, if_pos hax]
        simp only [insertSorted]
        by_cases hab : cellLE a b
        · by_cases hba : cellLE b a
          · have h := cellLE_antisymm hab hba
            subst h
            rfl
          · rw [if_pos hab, if_neg hba, if_pos hbx]
        · have hba : cellLE b a := (cellLE_total a b).resolve_left hab
          rw [if_neg hab, if_pos hba, if_pos hax]
      · rw [if_pos hbx, if_neg hax]
        simp only [insertSorted]
        have hab : ¬ cellLE a b := fun h => hax (IsTrans.trans a b x h hbx)
        rw [if_neg hab, if_neg hax, if_pos hbx]
      · rw [if_neg hbx, if_pos hax]
        simp only [insertSorted]
        have hba : ¬ cellLE b a := fun h => hbx (IsTrans.trans b a x h hax)
        rw [if_neg hba, if_neg hbx, if_pos hax]
      · rw [if_neg hbx, if_neg hax]
        simp only [insertSorted]
        rw [if_neg hax, if_neg hbx, ih]

/-- Enumeration of a Python set of cells as a sorted duplicate-free
list (the choice of order is immaterial: every loop body below is
order-independent over distinct cells). -/
def sortCells (s : Finset Cell) : List Cell :=
  Multiset.foldr insertSorted [] s.val

/-- Python class `Sentence(cells, count)`: the logical statement that
exactly `count` of the board cells `cells` are mines.  `__eq__` compares
`cells` and `count` by value, which is definitional equality here. -/
structure Sentence where
  cells : Finset Cell
  count : ℤ
deriving DecidableEq

namespace Sentence

/-- Python `Sentence.known_mines`: all cells of the sentence are mines
exactly when the cell count equals the mine count and the latter is
positive; otherwise no cell is known to be a mine. -/
def known_mines (s : Sentence) : Finset Cell :=
  if ((s.cells.card : ℤ) = s.count) ∧ (s.count > 0) then s.cells else (∅ : Finset Cell)

/-- Python `Sentence.known_safes`: with a mine count of zero every cell
of the sentence is safe; otherwise no cell is known to be safe. -/
def known_safes (s : Sentence) : Finset Cell :=
  if s.count = 0 then s.cells else (∅ : Finset Cell)

/-- Python `Sentence.mark_mine`: if the cell belongs to the sentence,
remove it and decrement the count, clamping at zero; otherwise no
change.  (The Python loop over `self.cells` is just a membership test:
it removes the cell and returns as soon as it finds it.) -/
def mark_mine (s : Sentence) (cell : Cell) : Sentence :=
  if cell ∈ s.cells then
    { cells := s.cells.erase cell
      count := if s.count > 0 then s.count - 1 else 0 }
  else s

/-- Python `Sentence.mark_safe`: if the cell belongs to the sentence,
remove it, leaving the count unchanged; otherwise no change. -/
def mark_safe (s : Sentence) (cell : Cell) : Sentence :=
  if cell ∈ s.cells then { s with cells := s.cells.erase cell } else s

end Sentence

/-- A single narrowing call on a `Sentence`: `Sentence.mark_mine` or
`Sentence.mark_safe` with the given cell argument. -/
inductive NarrowOp where
  | mine (c : Cell)
  | safe (c : Cell)
deriving DecidableEq

/-- Application of one narrowing call. -/
def Sentence.applyOp (s : Sentence) (op : NarrowOp) : Sentence :=
  match op with
  | NarrowOp.mine c => s.mark_mine c
  | NarrowOp.safe c => s.mark_safe c

/-- Application of a sequence of narrowing calls, first element first. -/
def Sentence.applyOps (s : Sentence) (ops : List NarrowOp) : Sentence :=
  ops.foldl Sentence.applyOp s

/-- Python class `MinesweeperAI`: board dimensions, the cells already
probed, the cells known to be mines, the cells known to be safe, and the
list of sentences in the knowledge base. -/
structure MinesweeperAI where
  height : ℕ
  width : ℕ
  moves_made : Finset Cell
  mines : Finset Cell
  safes : Finset Cell
  knowledge : List Sentence
deriving DecidableEq

/-- The freshly constructed `MinesweeperAI(height, width)`. -/
def initAI (height width : ℕ) : MinesweeperAI :=
  { height := height, width := width, moves_made := ∅, mines := ∅, safes := ∅,
    knowledge := [] }

namespace MinesweeperAI

/-- Python `MinesweeperAI.mark_mine`: add the cell to `mines` and narrow
every sentence of the knowledge base with `Sentence.mark_mine`. -/
def mark_mine (ai : MinesweeperAI) (cell : Cell) : MinesweeperAI :=
  { ai with mines := insert cell ai.mines
            knowledge := ai.knowledge.map (fun s => s.mark_mine cell) }

/-- Python `MinesweeperAI.mark_safe`: add the cell to `safes` and narrow
every sentence of the knowledge base with `Sentence.mark_safe`. -/
def mark_safe (ai : MinesweeperAI) (cell : Cell) : MinesweeperAI :=
  { ai with safes := insert cell ai.safes
            knowledge := ai.knowledge.map (fun s => s.mark_safe cell) }

/-- Neighbour computation of `add_knowledge`: the double loop over the
board that collects every cell not yet in `safes` whose row and column
distances to the probed cell match one of the three adjacency cases. -/
def neighbours (ai : MinesweeperAI) (cell : Cell) : Finset Cell :=
  ((Finset.range ai.height) ×ˢ (Finset.range ai.width)).filter (fun p =>
    p ∉ ai.safes ∧
    ((((cell.1 : ℤ) - (p.1 : ℤ)).natAbs = 1 ∧ ((cell.2 : ℤ) - (p.2 : ℤ)).natAbs = 1) ∨
     (((cell.1 : ℤ) - (p.1 : ℤ)).natAbs = 0 ∧ ((cell.2 : ℤ) - (p.2 : ℤ)).natAbs = 1) ∨
     (((cell.1 : ℤ) - (p.1 : ℤ)).natAbs = 1 ∧ ((cell.2 : ℤ) - (p.2 : ℤ)).natAbs = 0)))

/-- Steps 1-3 of `MinesweeperAI.add_knowledge`: record the move, mark the
probed cell safe, and append the new sentence built from the neighbour
set (computed against the already updated `safes`) and the reported
count. -/
def obsSentenceStep (ai : MinesweeperAI) (cell : Cell) (count : ℤ) : MinesweeperAI :=
  let ai1 := { ai with moves_made := insert cell ai.moves_made }
  let ai2 := ai1.mark_safe cell
  { ai2 with knowledge := ai2.knowledge ++ [⟨ai2.neighbours cell, count⟩] }

/-- Processing of the sentence at index `i` during step 4 of
`add_knowledge`.  The Python body binds `mines = sentence.known_mines()`
(an alias of the sentence's live cell set when conclusive), deep-copies
the cell set, marks every copied cell found in `mines`, then binds
`safes = sentence.known_safes()` on the now-narrowed sentence and marks
every copied cell found in it.  Because each `mark_mine`/`mark_safe`
call removes exactly the cell being processed from the aliased set, a
membership test against the alias and against the snapshot value taken
at the same program point agree on every iterated cell, so the snapshot
semantics used here is observably identical. -/
def closureStep (ai : MinesweeperAI) (i : ℕ) : MinesweeperAI :=
  match ai.knowledge.get? i with
  | none => ai
  | some s =>
      let minesKnown := s.known_mines
      let temp := sortCells s.cells
      let ai1 := temp.foldl (fun a c => if c ∈ minesKnown then a.mark_mine c else a) ai
      let safesKnown : Finset Cell := match ai1.knowledge.get? i with
        | some s1 => s1.known_safes
        | none => (∅ : Finset Cell)
      temp.foldl (fun a c => if c ∈ safesKnown then a.mark_safe c else a) ai1

/-- Step 4 of `MinesweeperAI.add_knowledge`: one pass over the knowledge
base (whose length no step of the pass changes), extracting and marking
the conclusions of each sentence in turn. -/
def closurePass (ai : MinesweeperAI) : MinesweeperAI :=
  (List.range ai.knowledge.length).foldl closureStep ai

/-- Step 5 of `MinesweeperAI.add_knowledge`: for every ordered pair of
sentences of the knowledge base, when the first cell set is contained in
the second and none of the skip conditions (equal cell sets, a zero
count, an empty cell set) applies, append the subset-subtraction
sentence.  `tempKnowledge` is built from the snapshot of the knowledge
base and appended only afterwards. -/
def derivationStep (ai : MinesweeperAI) : MinesweeperAI :=
  let temp := ai.knowledge.flatMap (fun first =>
    ai.knowledge.filterMap (fun second =>
      if first.cells ⊆ second.cells then
        if first.cells = second.cells then none
        else if first.count = 0 ∨ second.count = 0 then none
        else if first.cells.card = 0 ∨ second.cells.card = 0 then none
        else some ⟨second.cells \ first.cells, second.count - first.count⟩
      else none))
  { ai with knowledge := ai.knowledge ++ temp }

/-- Python `MinesweeperAI.add_knowledge`, the composition of its five
steps: record/mark/append, then the closure pass, then the derivation
step. -/
def add_knowledge (ai : MinesweeperAI) (cell : Cell) (count : ℤ) : MinesweeperAI :=
  derivationStep (closurePass (obsSentenceStep ai cell count))

end MinesweeperAI

/-- Row-major enumeration of the board coordinate space, exactly the
nested `for x in range(self.height): for y in range(self.width)` loops
of `make_random_move`. -/
def rowMajor (height width : ℕ) : List Cell :=
  (List.range height).flatMap (fun x => (List.range width).map (fun y => ((x, y) : Cell)))

/-- Python `MinesweeperAI.make_random_move`: scan the board in row-major
order and return the first cell neither already probed nor known to be a
mine, or `None` when the scan finds none. -/
def MinesweeperAI.make_random_move (ai : MinesweeperAI) : Option Cell :=
  (rowMajor ai.height ai.width).find?
    (fun c => decide (c ∉ ai.moves_made ∧ c ∉ ai.mines))

/-- The set of valid neighbours of a cell, written from the design
document: the cells at Chebyshev distance exactly 1 that lie within
the board coordinate range. -/
def chebNeighbours (height width : ℕ) (cell : Cell) : Finset Cell :=
  ((Finset.range height) ×ˢ (Finset.range width)).filter (fun p =>
    max (((cell.1 : ℤ) - (p.1 : ℤ)).natAbs) (((cell.2 : ℤ) - (p.2 : ℤ)).natAbs) = 1)

/-- An observation sequence is consistent with a fixed mine layout when
no probed cell is a mine, no cell is probed twice, and every reported
count is the true number of layout mines among the probed cell's valid
neighbours. -/
def Consistent (layout : Finset Cell) (height width : ℕ)
    (obs : List (Cell × ℤ)) : Prop :=
  (obs.map Prod.fst).Nodup ∧
  ∀ o ∈ obs, o.1 ∉ layout ∧
    o.2 = (((chebNeighbours height width o.1) ∩ layout).card : ℤ)

instance (layout : Finset Cell) (height width : ℕ) (obs : List (Cell × ℤ)) :
    Decidable (Consistent layout height width obs) := by
  unfold Consistent; infer_instance

/-- The engine state reached by feeding an observation sequence, in
order, to `add_knowledge`, starting from a fresh engine. -/
def runObserves (height width : ℕ) (obs : List (Cell × ℤ)) : MinesweeperAI :=
  obs.foldl (fun ai o => ai.add_knowledge o.1 o.2) (initAI height width)

/-- Soundness of an engine state for a layout: every cell in `mines` is
a layout mine and no cell in `safes` is a layout mine. -/
def Sound (layout : Finset Cell) (ai : MinesweeperAI) : Prop :=
  ai.mines ⊆ layout ∧ ∀ c ∈ ai.safes, c ∉ layout

instance (layout : Finset Cell) (ai : MinesweeperAI) :
    Decidable (Sound layout ai) := by
  unfold Sound; infer_instance

/-- A sentence is valid for a layout when its count is exactly the
number of layout mines among its cells. -/
def SentenceValid (layout : Finset Cell) (s : Sentence) : Prop :=
  s.count = (((s.cells ∩ layout).card : ℕ) : ℤ)

/-- The inductive invariant of the engine: recorded dimensions, sound
`mines` and `safes`, and a knowledge base of valid sentences. -/
def EngineInv (layout : Finset Cell) (height width : ℕ) (ai : MinesweeperAI) : Prop :=
  ai.height = height ∧ ai.width = width ∧
  ai.mines ⊆ layout ∧ (∀ c ∈ ai.safes, c ∉ layout) ∧
  ∀ s ∈ ai.knowledge, SentenceValid layout s

/-- Guard on a narrowing call relative to a layout: a `mark_mine` call
names a layout mine and a `mark_safe` call names a non-mine. -/
def OpGuard (layout : Finset Cell) (op : NarrowOp) : Prop :=
  match op with
  | NarrowOp.mine c => c ∈ layout
  | NarrowOp.safe c => c ∉ layout

instance (layout : Finset Cell) (op : NarrowOp) : Decidable (OpGuard layout op) :=
  match op with
  | NarrowOp.mine c => inferInstanceAs (Decidable (c ∈ layout))
  | NarrowOp.safe c => inferInstanceAs (Decidable (c ∉ layout))

instance (layout : Finset Cell) (s : Sentence) :
    Decidable (SentenceValid layout s) := by
  unfold SentenceValid; infer_instance

/-- Python set objects referenced through a heap: a store is the list of
allocated set values and a reference is an index into it.  This lower
refinement layer records object identity, which the `Finset`-valued
embedding abstracts away; it is used to settle the aliasing behaviour of
`known_mines`. -/
def storeGet (st : List (Finset Cell)) (r : ℕ) : Finset Cell := st.getD r ∅

/-- A `Sentence` whose `cells` field is a reference into a store. -/
structure SentenceObj where
  cellsRef : ℕ
  count : ℤ
deriving DecidableEq

/-- Python `Sentence.known_mines` under explicit-heap semantics:
`return self.cells` hands back the existing reference unchanged, while
`return set()` allocates a fresh empty set at a fresh reference. -/
def known_mines_ref (st : List (Finset Cell)) (s : SentenceObj) :
    List (Finset Cell) × ℕ :=
  if (((storeGet st s.cellsRef).card : ℤ) = s.count) ∧ (s.count > 0) then
    (st, s.cellsRef)
  else
    (st ++ [∅], st.length)

/-!
Theorems.
-/

lemma cheb_case_iff (a b : ℤ) :
    ((a.natAbs = 1 ∧ b.natAbs = 1) ∨ (a.natAbs = 0 ∧ b.natAbs = 1) ∨
      (a.natAbs = 1 ∧ b.natAbs = 0)) ↔ max a.natAbs b.natAbs = 1 := by
  omega

/-- The three adjacency cases of the source's neighbour loop are exactly
Chebyshev distance 1; hence the computed neighbour set is the in-board
Chebyshev ball of radius 1 minus the current `safes`. -/
lemma neighbours_eq (ai : MinesweeperAI) (cell : Cell) :
    ai.neighbours cell =
      (chebNeighbours ai.height ai.width cell).filter (fun p => p ∉ ai.safes) := by
  ext p
  simp only [MinesweeperAI.neighbours, chebNeighbours, Finset.mem_filter,
    Finset.mem_product, Finset.mem_range]
  constructor
  · rintro ⟨⟨h1, h2⟩, hns, hcase⟩
    exact ⟨⟨⟨h1, h2⟩, (cheb_case_iff _ _).mp hcase⟩, hns⟩
  · rintro ⟨⟨⟨h1, h2⟩, hmax⟩, hns⟩
    exact ⟨⟨h1, h2⟩, hns, (cheb_case_iff _ _).mpr hmax⟩

/-- C6.  The sentence appended by `add_knowledge(cell, count)` carries the
given count, and its cell set holds a board cell exactly when it is at
Chebyshev distance 1 from `cell`, lies within the board, and is not in
`safes` as updated by step 2 (so `cell`, just marked safe, is never in
it, and cells in `mines` are not excluded, their membership being
decided by adjacency and safety alone).  `cell` is also recorded in
`moves_made` and added to `safes`. -/
theorem observation_appends_neighbour_sentence (ai : MinesweeperAI) (cell : Cell)
    (count : ℤ) :
    ∃ nb : Finset Cell,
      (ai.obsSentenceStep cell count).knowledge.getLast? = some ⟨nb, count⟩ ∧
      (∀ p : Cell, p ∈ nb ↔
        (p ∈ chebNeighbours ai.height ai.width cell ∧ p ∉ insert cell ai.safes)) ∧
      cell ∉ nb ∧
      cell ∈ (ai.obsSentenceStep cell count).moves_made ∧
      (ai.obsSentenceStep cell count).safes = insert cell ai.safes := by
  refine ⟨({ ai with moves_made := insert cell ai.moves_made }.mark_safe cell).neighbours
    cell, ?_, ?_, ?_, ?_, ?_⟩
  · exact List.getLast?_concat _
  · intro p
    rw [neighbours_eq]
    simp [MinesweeperAI.mark_safe, Finset.mem_filter]
  · rw [neighbours_eq]
    simp [MinesweeperAI.mark_safe]
  · exact Finset.mem_insert_self _ _
  · rfl

/-- C4, counterexample.  A constraint satisfying `count <= |cells|` can
violate the bound after a single `narrow_as_safe` call with an arbitrary
cell argument: marking `(0,0)` safe in the sentence `{(0,0),(0,1)} = 2`
leaves `count = 2 > 1 = |cells|`. -/
theorem narrowing_bound_cex :
    ((⟨{((0, 0) : Cell), (0, 1)}, 2⟩ : Sentence).count ≤
      (((⟨{((0, 0) : Cell), (0, 1)}, 2⟩ : Sentence).cells.card : ℕ) : ℤ)) ∧
    ¬ ((Sentence.applyOps ⟨{((0, 0) : Cell), (0, 1)}, 2⟩
          [NarrowOp.safe (0, 0)]).count ≤
        (((Sentence.applyOps ⟨{((0, 0) : Cell), (0, 1)}, 2⟩
          [NarrowOp.safe (0, 0)]).cells.card : ℕ) : ℤ)) := by
  decide

lemma valid_mark_mine {layout : Finset Cell} {s : Sentence} {c : Cell}
    (hc : c ∈ layout) (h : SentenceValid layout s) :
    SentenceValid layout (s.mark_mine c) := by
  unfold SentenceValid at h ⊢
  unfold Sentence.mark_mine
  by_cases hmem : c ∈ s.cells
  · rw [if_pos hmem]
    have hin : c ∈ s.cells ∩ layout := Finset.mem_inter.mpr ⟨hmem, hc⟩
    have hpos : 0 < (s.cells ∩ layout).card := Finset.card_pos.mpr ⟨c, hin⟩
    have herase : s.cells.erase c ∩ layout = (s.cells ∩ layout).erase c := by
      ext x
      simp only [Finset.mem_erase, Finset.mem_inter]
      tauto
    have hcount : s.count > 0 := by rw [h]; exact_mod_cast hpos
    show (if s.count > 0 then s.count - 1 else 0) =
      (((s.cells.erase c ∩ layout).card : ℕ) : ℤ)
    rw [if_pos hcount, herase, Finset.card_erase_of_mem hin, h]
    omega
  · rw [if_neg hmem]
    exact h

lemma valid_mark_safe {layout : Finset Cell} {s : Sentence} {c : Cell}
    (hc : c ∉ layout) (h : SentenceValid layout s) :
    SentenceValid layout (s.mark_safe c) := by
  unfold SentenceValid at h ⊢
  unfold Sentence.mark_safe
  by_cases hmem : c ∈ s.cells
  · rw [if_pos hmem]
    have herase : s.cells.erase c ∩ layout = s.cells ∩ layout := by
      ext x
      simp only [Finset.mem_erase, Finset.mem_inter]
      constructor
      · rintro ⟨⟨_, hx⟩, hl⟩
        exact ⟨hx, hl⟩
      · rintro ⟨hx, hl⟩
        exact ⟨⟨fun he => hc (he ▸ hl), hx⟩, hl⟩
    show s.count = (((s.cells.erase c ∩ layout).card : ℕ) : ℤ)
    rw [herase]
    exact h
  · rw [if_neg hmem]
    exact h

lemma valid_applyOps {layout : Finset Cell} (ops : List NarrowOp) :
    ∀ s : Sentence, SentenceValid layout s →
    (∀ op ∈ ops, OpGuard layout op) →
    SentenceValid layout (s.applyOps ops) := by
  induction ops with
  | nil => exact fun s hs _ => hs
  | cons op ops ih =>
      intro s hs hops
      have hop := hops op (List.mem_cons_self op ops)
      have htail : ∀ o ∈ ops, OpGuard layout o :=
        fun o ho => hops o (List.mem_cons_of_mem op ho)
      show SentenceValid layout (ops.foldl Sentence.applyOp (s.applyOp op))
      apply ih _ _ htail
      cases op with
      | mine c => exact valid_mark_mine hop hs
      | safe c => exact valid_mark_safe hop hs

/-- C4, amended.  For a constraint certified by a mine layout
(`count` equals the number of layout mines among `cells`, which implies
`count <= |cells|`), any sequence of `narrow_as_mine` calls on layout
mines and `narrow_as_safe` calls on non-mines preserves the certificate,
so `count <= |cells|` still holds afterwards; the unrestricted claim
fails because `narrow_as_safe` on a cell of a saturated constraint drops
a cell without touching the count. -/
theorem narrowing_preserves_bound (layout : Finset Cell) (s : Sentence)
    (ops : List NarrowOp) (hval : SentenceValid layout s)
    (hops : ∀ op ∈ ops, OpGuard layout op) :
    (s.applyOps ops).count ≤ (((s.applyOps ops).cells.card : ℕ) : ℤ) := by
  have hv := valid_applyOps ops s hval hops
  unfold SentenceValid at hv
  rw [hv]
  have hsub : (s.applyOps ops).cells ∩ layout ⊆ (s.applyOps ops).cells :=
    Finset.inter_subset_left
  have := Finset.card_le_card hsub
  exact_mod_cast this

/-- Witness for the amended C4 at a concrete input. -/
theorem narrowing_preserves_bound_witness :
    SentenceValid {((0, 0) : Cell)} ⟨{((0, 0) : Cell), (0, 1)}, 1⟩ ∧
    (∀ op ∈ [NarrowOp.mine ((0, 0) : Cell), NarrowOp.safe ((0, 1) : Cell)],
      OpGuard {((0, 0) : Cell)} op) ∧
    (Sentence.applyOps ⟨{((0, 0) : Cell), (0, 1)}, 1⟩
        [NarrowOp.mine ((0, 0) : Cell), NarrowOp.safe ((0, 1) : Cell)]).count ≤
      (((Sentence.applyOps ⟨{((0, 0) : Cell), (0, 1)}, 1⟩
        [NarrowOp.mine ((0, 0) : Cell), NarrowOp.safe ((0, 1) : Cell)]).cells.card :
          ℕ) : ℤ) :=
  ⟨by decide, by decide,
    narrowing_preserves_bound {((0, 0) : Cell)} ⟨{((0, 0) : Cell), (0, 1)}, 1⟩
      [NarrowOp.mine ((0, 0) : Cell), NarrowOp.safe ((0, 1) : Cell)]
      (by decide) (by decide)⟩

/-- C8, counterexample.  On `Sentence({(0,0),(0,1)}, 2)` the source's
`known_mines` executes `return self.cells`, handing back the internal
set object itself: under the explicit-heap semantics the returned
reference equals the sentence's own `cellsRef` and the store is
untouched, so the returned set (here the full cell set) is an alias of
the internal `cells`, not a fresh set. -/
theorem known_mines_aliases_cells :
    (known_mines_ref [({((0, 0) : Cell), (0, 1)} : Finset Cell)] ⟨0, 2⟩).2 =
      (⟨0, 2⟩ : SentenceObj).cellsRef ∧
    (known_mines_ref [({((0, 0) : Cell), (0, 1)} : Finset Cell)] ⟨0, 2⟩).1 =
      [({((0, 0) : Cell), (0, 1)} : Finset Cell)] ∧
    storeGet (known_mines_ref [({((0, 0) : Cell), (0, 1)} : Finset Cell)] ⟨0, 2⟩).1
      (known_mines_ref [({((0, 0) : Cell), (0, 1)} : Finset Cell)] ⟨0, 2⟩).2 =
      {((0, 0) : Cell), (0, 1)} := by
  refine ⟨rfl, rfl, ?_⟩
  decide

/-- C8, amended.  `known_mines` returns the full cell set exactly when
`count > 0` and `count = |cells|`, and the empty set otherwise; it does
not modify the constraint (the store keeps the sentence's cell set
unchanged at its reference); but the full cell set is returned as the
internal set object itself — the returned reference is the sentence's
`cellsRef` exactly in the conclusive case — while only the empty result
is a freshly allocated set. -/
theorem known_mines_ref_contract (st : List (Finset Cell)) (s : SentenceObj)
    (hr : s.cellsRef < st.length) :
    storeGet (known_mines_ref st s).1 (known_mines_ref st s).2 =
      (if ((storeGet st s.cellsRef).card : ℤ) = s.count ∧ s.count > 0
        then storeGet st s.cellsRef else ∅) ∧
    storeGet (known_mines_ref st s).1 s.cellsRef = storeGet st s.cellsRef ∧
    ((known_mines_ref st s).2 = s.cellsRef ↔
      (((storeGet st s.cellsRef).card : ℤ) = s.count ∧ s.count > 0)) := by
  unfold known_mines_ref
  by_cases hcond : ((storeGet st s.cellsRef).card : ℤ) = s.count ∧ s.count > 0
  · rw [if_pos hcond, if_pos hcond]
    exact ⟨rfl, rfl, by simp [hcond]⟩
  · rw [if_neg hcond, if_neg hcond]
    have hfresh : storeGet (st ++ [∅]) st.length = ∅ := by
      unfold storeGet
      rw [List.getD_append_right st [∅] ∅ st.length (le_refl _)]
      simp
    have hold : storeGet (st ++ [∅]) s.cellsRef = storeGet st s.cellsRef := by
      unfold storeGet
      exact List.getD_append st [∅] ∅ s.cellsRef hr
    refine ⟨hfresh, hold, ?_⟩
    simp only [iff_false_intro hcond, iff_false]
    omega

/-- Witness for the amended C8 at a concrete input. -/
theorem known_mines_ref_contract_witness :
    (0 : ℕ) < ([({((0, 0) : Cell)} : Finset Cell)] : List (Finset Cell)).length ∧
    (storeGet (known_mines_ref [({((0, 0) : Cell)} : Finset Cell)] ⟨0, 1⟩).1
        (known_mines_ref [({((0, 0) : Cell)} : Finset Cell)] ⟨0, 1⟩).2 =
      (if ((storeGet [({((0, 0) : Cell)} : Finset Cell)] 0).card : ℤ) = 1 ∧ (1 : ℤ) > 0
        then storeGet [({((0, 0) : Cell)} : Finset Cell)] 0 else ∅) ∧
    storeGet (known_mines_ref [({((0, 0) : Cell)} : Finset Cell)] ⟨0, 1⟩).1 0 =
      storeGet [({((0, 0) : Cell)} : Finset Cell)] 0 ∧
    ((known_mines_ref [({((0, 0) : Cell)} : Finset Cell)] ⟨0, 1⟩).2 = 0 ↔
      (((storeGet [({((0, 0) : Cell)} : Finset Cell)] 0).card : ℤ) = 1 ∧ (1 : ℤ) > 0))) :=
  ⟨by decide,
    known_mines_ref_contract [({((0, 0) : Cell)} : Finset Cell)] ⟨0, 1⟩ (by decide)⟩

/-- C2, evaluation at the failing input.  On a 1-by-4 board with the
single mine at `(0,2)`, after observing `(0,1)` with count 1 and then
`(0,3)` with count 1, the state reached when the second call's closure
pass (step 4) finishes still contains the sentence `{(0,0)} = 0`, whose
`known_safes` is not contained in `safes`: a single pass is not a
fixpoint, contradicting the mandated closure-to-fixpoint behaviour. -/
theorem closure_pass_not_fixpoint :
    ¬ (∀ s ∈ (MinesweeperAI.closurePass (MinesweeperAI.obsSentenceStep
        (MinesweeperAI.add_knowledge (initAI 1 4) (0, 1) 1) (0, 3) 1)).knowledge,
      s.known_mines ⊆ (MinesweeperAI.closurePass (MinesweeperAI.obsSentenceStep
        (MinesweeperAI.add_knowledge (initAI 1 4) (0, 1) 1) (0, 3) 1)).mines ∧
      s.known_safes ⊆ (MinesweeperAI.closurePass (MinesweeperAI.obsSentenceStep
        (MinesweeperAI.add_knowledge (initAI 1 4) (0, 1) 1) (0, 3) 1)).safes) := by
  decide

/-- C7, evaluation at the failing input.  On a 2-by-5 board with mines
at `(0,0)` and `(0,2)`, after observing `(0,1)` with count 2, `(1,0)`
with count 1 and `(0,4)` with count 0 (a consistent sequence), the third
call's derivation step appends the sentence `{(0,2),(1,2)} = 1` even
though an entry equal by value is already present, and the resulting
knowledge base contains value-equal duplicates. -/
theorem derivation_appends_duplicate :
    (MinesweeperAI.closurePass (MinesweeperAI.obsSentenceStep
        (runObserves 2 5 [(((0, 1) : Cell), (2 : ℤ)), (((1, 0) : Cell), 1)])
        (0, 4) 0)).knowledge.get? 2 =
      some ⟨{((0, 2) : Cell), (1, 2)}, 1⟩ ∧
    (runObserves 2 5 [(((0, 1) : Cell), (2 : ℤ)), (((1, 0) : Cell), 1),
        (((0, 4) : Cell), 0)]).knowledge.get? 4 =
      some ⟨{((0, 2) : Cell), (1, 2)}, 1⟩ ∧
    (MinesweeperAI.closurePass (MinesweeperAI.obsSentenceStep
        (runObserves 2 5 [(((0, 1) : Cell), (2 : ℤ)), (((1, 0) : Cell), 1)])
        (0, 4) 0)).knowledge.length = 4 ∧
    Consistent {((0, 0) : Cell), (0, 2)} 2 5
      [(((0, 1) : Cell), (2 : ℤ)), (((1, 0) : Cell), 1), (((0, 4) : Cell), 0)] ∧
    ¬ List.Pairwise (fun a b => a ≠ b)
      (runObserves 2 5 [(((0, 1) : Cell), (2 : ℤ)), (((1, 0) : Cell), 1),
        (((0, 4) : Cell), 0)]).knowledge := by
  refine ⟨by decide, by decide, by decide, by decide, ?_⟩
  decide

lemma known_mines_subset_layout {layout : Finset Cell} {s : Sentence}
    (h : SentenceValid layout s) : s.known_mines ⊆ layout := by
  unfold Sentence.known_mines
  split
  · rename_i hcond
    obtain ⟨hcd, hpos⟩ := hcond
    unfold SentenceValid at h
    have hcard : (s.cells ∩ layout).card = s.cells.card := by omega
    have heq : s.cells ∩ layout = s.cells :=
      Finset.eq_of_subset_of_card_le Finset.inter_subset_left (le_of_eq hcard.symm)
    intro x hx
    have hx2 : x ∈ s.cells ∩ layout := heq.symm ▸ hx
    exact (Finset.mem_inter.mp hx2).2
  · intro x hx
    exact absurd hx (Finset.not_mem_empty x)

lemma known_safes_not_layout {layout : Finset Cell} {s : Sentence}
    (h : SentenceValid layout s) : ∀ c ∈ s.known_safes, c ∉ layout := by
  unfold Sentence.known_safes
  split
  · rename_i h0
    intro c hc hcl
    have hmem : c ∈ s.cells ∩ layout := Finset.mem_inter.mpr ⟨hc, hcl⟩
    have hpos : 0 < (s.cells ∩ layout).card := Finset.card_pos.mpr ⟨c, hmem⟩
    unfold SentenceValid at h
    omega
  · intro c hc
    exact absurd hc (Finset.not_mem_empty c)

lemma engineInv_mark_mine {layout : Finset Cell} {hgt wdt : ℕ} {ai : MinesweeperAI}
    {c : Cell} (hc : c ∈ layout) (hI : EngineInv layout hgt wdt ai) :
    EngineInv layout hgt wdt (ai.mark_mine c) := by
  obtain ⟨h1, h2, h3, h4, h5⟩ := hI
  unfold MinesweeperAI.mark_mine
  refine ⟨h1, h2, ?_, h4, ?_⟩
  · intro x hx
    rcases Finset.mem_insert.mp hx with hx | hx
    · exact hx ▸ hc
    · exact h3 hx
  · intro s hs
    rcases List.mem_map.mp hs with ⟨t, ht, rfl⟩
    exact valid_mark_mine hc (h5 t ht)

lemma engineInv_mark_safe {layout : Finset Cell} {hgt wdt : ℕ} {ai : MinesweeperAI}
    {c : Cell} (hc : c ∉ layout) (hI : EngineInv layout hgt wdt ai) :
    EngineInv layout hgt wdt (ai.mark_safe c) := by
  obtain ⟨h1, h2, h3, h4, h5⟩ := hI
  unfold MinesweeperAI.mark_safe
  refine ⟨h1, h2, h3, ?_, ?_⟩
  · intro x hx
    rcases Finset.mem_insert.mp hx with hx | hx
    · exact hx ▸ hc
    · exact h4 x hx
  · intro s hs
    rcases List.mem_map.mp hs with ⟨t, ht, rfl⟩
    exact valid_mark_safe hc (h5 t ht)

lemma engineInv_foldl_mark_mine {layout : Finset Cell} {hgt wdt : ℕ}
    (S : Finset Cell) (hS : S ⊆ layout) (l : List Cell) :
    ∀ ai : MinesweeperAI, EngineInv layout hgt wdt ai →
      EngineInv layout hgt wdt
        (l.foldl (fun a c => if c ∈ S then a.mark_mine c else a) ai) := by
  induction l with
  | nil => exact fun ai hI => hI
  | cons c l ih =>
      intro ai hI
      simp only [List.foldl_cons]
      apply ih
      by_cases hc : c ∈ S
      · rw [if_pos hc]
        exact engineInv_mark_mine (hS hc) hI
      · rw [if_neg hc]
        exact hI

lemma engineInv_foldl_mark_safe {layout : Finset Cell} {hgt wdt : ℕ}
    (S : Finset Cell) (hS : ∀ c ∈ S, c ∉ layout) (l : List Cell) :
    ∀ ai : MinesweeperAI, EngineInv layout hgt wdt ai →
      EngineInv layout hgt wdt
        (l.foldl (fun a c => if c ∈ S then a.mark_safe c else a) ai) := by
  induction l with
  | nil => exact fun ai hI => hI
  | cons c l ih =>
      intro ai hI
      simp only [List.foldl_cons]
      apply ih
      by_cases hc : c ∈ S
      · rw [if_pos hc]
        exact engineInv_mark_safe (hS c hc) hI
      · rw [if_neg hc]
        exact hI

lemma engineInv_closureStep {layout : Finset Cell} {hgt wdt : ℕ}
    (ai : MinesweeperAI) (i : ℕ) (hI : EngineInv layout hgt wdt ai) :
    EngineInv layout hgt wdt (ai.closureStep i) := by
  cases hget : ai.knowledge.get? i with
  | none =>
      simp only [MinesweeperAI.closureStep, hget]
      exact hI
  | some s =>
      have hsmem : s ∈ ai.knowledge := List.get?_mem hget
      have hval : SentenceValid layout s := hI.2.2.2.2 s hsmem
      have hmines : s.known_mines ⊆ layout := known_mines_subset_layout hval
      simp only [MinesweeperAI.closureStep, hget]
      have hI1 : EngineInv layout hgt wdt
          ((sortCells s.cells).foldl
            (fun a c => if c ∈ s.known_mines then a.mark_mine c else a) ai) :=
        engineInv_foldl_mark_mine s.known_mines hmines _ ai hI
      cases hget1 : ((sortCells s.cells).foldl
          (fun a c => if c ∈ s.known_mines then a.mark_mine c else a)
          ai).knowledge.get? i with
      | none =>
          simp only [hget1]
          exact engineInv_foldl_mark_safe ∅
            (fun c hc => absurd hc (Finset.not_mem_empty c)) _ _ hI1
      | some s1 =>
          have hs1mem : s1 ∈ ((sortCells s.cells).foldl
              (fun a c => if c ∈ s.known_mines then a.mark_mine c else a)
              ai).knowledge := List.get?_mem hget1
          have hval1 : SentenceValid layout s1 := hI1.2.2.2.2 s1 hs1mem
          simp only [hget1]
          exact engineInv_foldl_mark_safe s1.known_safes
            (known_safes_not_layout hval1) _ _ hI1

lemma engineInv_foldl_closureStep {layout : Finset Cell} {hgt wdt : ℕ}
    (l : List ℕ) :
    ∀ ai : MinesweeperAI, EngineInv layout hgt wdt ai →
      EngineInv layout hgt wdt (l.foldl MinesweeperAI.closureStep ai) := by
  induction l with
  | nil => exact fun ai hI => hI
  | cons j l ih =>
      intro ai hI
      simp only [List.foldl_cons]
      exact ih _ (engineInv_closureStep ai j hI)

lemma engineInv_closurePass {layout : Finset Cell} {hgt wdt : ℕ}
    {ai : MinesweeperAI} (hI : EngineInv layout hgt wdt ai) :
    EngineInv layout hgt wdt ai.closurePass :=
  engineInv_foldl_closureStep _ ai hI

lemma valid_subtract {layout : Finset Cell} {A B : Sentence}
    (hA : SentenceValid layout A) (hB : SentenceValid layout B)
    (hsub : A.cells ⊆ B.cells) :
    SentenceValid layout ⟨B.cells \ A.cells, B.count - A.count⟩ := by
  unfold SentenceValid at hA hB ⊢
  have hsub2 : A.cells ∩ layout ⊆ B.cells ∩ layout :=
    Finset.inter_subset_inter hsub (Finset.Subset.refl _)
  have hd : (B.cells \ A.cells) ∩ layout = (B.cells ∩ layout) \ (A.cells ∩ layout) := by
    ext x
    simp only [Finset.mem_sdiff, Finset.mem_inter]
    tauto
  show B.count - A.count = (((B.cells \ A.cells) ∩ layout).card : ℤ)
  rw [hd, Finset.card_sdiff hsub2]
  have hle := Finset.card_le_card hsub2
  omega

lemma engineInv_derivationStep {layout : Finset Cell} {hgt wdt : ℕ}
    {ai : MinesweeperAI} (hI : EngineInv layout hgt wdt ai) :
    EngineInv layout hgt wdt ai.derivationStep := by
  obtain ⟨h1, h2, h3, h4, h5⟩ := hI
  refine ⟨h1, h2, h3, h4, ?_⟩
  intro s hs
  simp only [MinesweeperAI.derivationStep] at hs
  rcases List.mem_append.mp hs with hs | hs
  · exact h5 s hs
  · rcases List.mem_flatMap.mp hs with ⟨first, hfirst, hs⟩
    rcases List.mem_filterMap.mp hs with ⟨second, hsecond, heq⟩
    by_cases hsub : first.cells ⊆ second.cells
    · rw [if_pos hsub] at heq
      by_cases he : first.cells = second.cells
      · rw [if_pos he] at heq
        exact absurd heq (by simp)
      · rw [if_neg he] at heq
        by_cases hz : first.count = 0 ∨ second.count = 0
        · rw [if_pos hz] at heq
          exact absurd heq (by simp)
        · rw [if_neg hz] at heq
          by_cases hc0 : first.cells.card = 0 ∨ second.cells.card = 0
          · rw [if_pos hc0] at heq
            exact absurd heq (by simp)
          · rw [if_neg hc0] at heq
            have hseq := Option.some.inj heq
            rw [← hseq]
            exact valid_subtract (h5 first hfirst) (h5 second hsecond) hsub
    · rw [if_neg hsub] at heq
      exact absurd heq (by simp)

lemma filter_not_safes_inter (S F L : Finset Cell) (h : ∀ c ∈ L, c ∉ F) :
    (S.filter (fun p => p ∉ F)) ∩ L = S ∩ L := by
  ext x
  simp only [Finset.mem_inter, Finset.mem_filter]
  constructor
  · rintro ⟨⟨hx, _⟩, hl⟩
    exact ⟨hx, hl⟩
  · rintro ⟨hx, hl⟩
    exact ⟨⟨hx, h x hl⟩, hl⟩

lemma engineInv_obsSentenceStep {layout : Finset Cell} {hgt wdt : ℕ}
    {ai : MinesweeperAI} {cell : Cell} {count : ℤ}
    (hI : EngineInv layout hgt wdt ai) (hcell : cell ∉ layout)
    (hcount : count = (((chebNeighbours hgt wdt cell) ∩ layout).card : ℤ)) :
    EngineInv layout hgt wdt (ai.obsSentenceStep cell count) := by
  unfold MinesweeperAI.obsSentenceStep
  have hI1 : EngineInv layout hgt wdt
      { ai with moves_made := insert cell ai.moves_made } := hI
  have hI2 := engineInv_mark_safe hcell hI1
  set ai2 := MinesweeperAI.mark_safe
    { ai with moves_made := insert cell ai.moves_made } cell with hai2
  obtain ⟨h1, h2, h3, h4, h5⟩ := hI2
  refine ⟨h1, h2, h3, h4, ?_⟩
  intro s hs
  rcases List.mem_append.mp hs with hs | hs
  · exact h5 s hs
  · have hseq := List.mem_singleton.mp hs
    subst hseq
    unfold SentenceValid
    show count = (((ai2.neighbours cell) ∩ layout).card : ℤ)
    rw [neighbours_eq]
    rw [filter_not_safes_inter _ _ _ (fun c hcL hcF => h4 c hcF hcL)]
    rw [h1, h2]
    exact hcount

lemma engineInv_add_knowledge {layout : Finset Cell} {hgt wdt : ℕ}
    {ai : MinesweeperAI} {cell : Cell} {count : ℤ}
    (hI : EngineInv layout hgt wdt ai) (hcell : cell ∉ layout)
    (hcount : count = (((chebNeighbours hgt wdt cell) ∩ layout).card : ℤ)) :
    EngineInv layout hgt wdt (ai.add_knowledge cell count) :=
  engineInv_derivationStep
    (engineInv_closurePass (engineInv_obsSentenceStep hI hcell hcount))

lemma engineInv_runFold {layout : Finset Cell} {hgt wdt : ℕ}
    (obs : List (Cell × ℤ)) :
    ∀ ai : MinesweeperAI, EngineInv layout hgt wdt ai →
      (∀ o ∈ obs, o.1 ∉ layout ∧
        o.2 = (((chebNeighbours hgt wdt o.1) ∩ layout).card : ℤ)) →
      EngineInv layout hgt wdt
        (obs.foldl (fun a o => a.add_knowledge o.1 o.2) ai) := by
  induction obs with
  | nil => exact fun ai hI _ => hI
  | cons o obs ih =>
      intro ai hI hobs
      simp only [List.foldl_cons]
      apply ih
      · have ho := hobs o (List.mem_cons_self o obs)
        exact engineInv_add_knowledge hI ho.1 ho.2
      · exact fun p hp => hobs p (List.mem_cons_of_mem o hp)

lemma engineInv_init (layout : Finset Cell) (hgt wdt : ℕ) :
    EngineInv layout hgt wdt (initAI hgt wdt) := by
  refine ⟨rfl, rfl, ?_, ?_, ?_⟩
  · intro x hx
    exact absurd hx (Finset.not_mem_empty x)
  · intro c hc
    exact absurd hc (Finset.not_mem_empty c)
  · intro s hs
    exact absurd hs (List.not_mem_nil s)

/-- C1.  For every observation sequence consistent with a fixed mine
layout, the engine state after every `add_knowledge` call (i.e. after
any prefix of the sequence) is sound: every cell the engine holds in
`mines` is a layout mine, and no cell it holds in `safes` is one. -/
theorem deduction_sound (layout : Finset Cell) (height width : ℕ)
    (obs pre post : List (Cell × ℤ)) (hsplit : obs = pre ++ post)
    (hcons : Consistent layout height width obs) :
    Sound layout (runObserves height width pre) := by
  have hpre : ∀ o ∈ pre, o.1 ∉ layout ∧
      o.2 = (((chebNeighbours height width o.1) ∩ layout).card : ℤ) := by
    intro o ho
    exact hcons.2 o (hsplit ▸ List.mem_append_left post ho)
  have hI := engineInv_runFold pre (initAI height width)
    (engineInv_init layout height width) hpre
  exact ⟨hI.2.2.1, hI.2.2.2.1⟩

/-- Witness for C1 at a concrete input: a 2-by-2 board with the single
mine at `(0,0)` and one observation of `(1,1)` reporting one mine. -/
theorem deduction_sound_witness :
    Consistent {((0, 0) : Cell)} 2 2 [(((1, 1) : Cell), (1 : ℤ))] ∧
    Sound {((0, 0) : Cell)} (runObserves 2 2 [(((1, 1) : Cell), (1 : ℤ))]) :=
  ⟨by decide, deduction_sound {((0, 0) : Cell)} 2 2
    [(((1, 1) : Cell), (1 : ℤ))] [(((1, 1) : Cell), (1 : ℤ))] [] rfl (by decide)⟩

/-- C3.  For every observation sequence consistent with a fixed mine
layout, the engine state after every `add_knowledge` call satisfies the
global invariant `safes ∩ mines = ∅`. -/
theorem safes_mines_disjoint (layout : Finset Cell) (height width : ℕ)
    (obs pre post : List (Cell × ℤ)) (hsplit : obs = pre ++ post)
    (hcons : Consistent layout height width obs) :
    (runObserves height width pre).safes ∩ (runObserves height width pre).mines
      = ∅ := by
  have hpre : ∀ o ∈ pre, o.1 ∉ layout ∧
      o.2 = (((chebNeighbours height width o.1) ∩ layout).card : ℤ) := by
    intro o ho
    exact hcons.2 o (hsplit ▸ List.mem_append_left post ho)
  have hI := engineInv_runFold pre (initAI height width)
    (engineInv_init layout height width) hpre
  apply Finset.eq_empty_of_forall_not_mem
  intro c hc
  have hcs := (Finset.mem_inter.mp hc).1
  have hcm := (Finset.mem_inter.mp hc).2
  exact hI.2.2.2.1 c hcs (hI.2.2.1 hcm)

/-- Witness for C3 at a concrete input: a 1-by-3 board with the single
mine at `(0,2)` and one observation of `(0,1)` reporting one mine. -/
theorem safes_mines_disjoint_witness :
    Consistent {((0, 2) : Cell)} 1 3 [(((0, 1) : Cell), (1 : ℤ))] ∧
    (runObserves 1 3 [(((0, 1) : Cell), (1 : ℤ))]).safes ∩
      (runObserves 1 3 [(((0, 1) : Cell), (1 : ℤ))]).mines = ∅ :=
  ⟨by decide, safes_mines_disjoint {((0, 2) : Cell)} 1 3
    [(((0, 1) : Cell), (1 : ℤ))] [(((0, 1) : Cell), (1 : ℤ))] [] rfl (by decide)⟩

lemma derive_pair_eq (first second t : Sentence)
    (hA : 0 ≤ first.count) (hB : 0 ≤ second.count) :
    ((if first.cells ⊆ second.cells then
        if first.cells = second.cells then none
        else if first.count = 0 ∨ second.count = 0 then none
        else if first.cells.card = 0 ∨ second.cells.card = 0 then none
        else some (⟨second.cells \ first.cells,
          second.count - first.count⟩ : Sentence)
      else none) = some t) ↔
    (first.cells ⊆ second.cells ∧ first.cells ≠ second.cells ∧
      first.cells ≠ ∅ ∧ second.cells ≠ ∅ ∧
      0 < first.count ∧ 0 < second.count ∧
      t = ⟨second.cells \ first.cells, second.count - first.count⟩) := by
  by_cases h1 : first.cells ⊆ second.cells
  · rw [if_pos h1]
    by_cases h2 : first.cells = second.cells
    · rw [if_pos h2]
      constructor
      · intro h
        exact Option.noConfusion h
      · rintro ⟨_, hne, _⟩
        exact absurd h2 hne
    · rw [if_neg h2]
      by_cases h3 : first.count = 0 ∨ second.count = 0
      · rw [if_pos h3]
        constructor
        · intro h
          exact Option.noConfusion h
        · rintro ⟨_, _, _, _, hc1, hc2, _⟩
          exfalso
          rcases h3 with h3 | h3 <;> omega
      · rw [if_neg h3]
        by_cases h4 : first.cells.card = 0 ∨ second.cells.card = 0
        · rw [if_pos h4]
          constructor
          · intro h
            exact Option.noConfusion h
          · rintro ⟨_, _, hne1, hne2, _⟩
            rcases h4 with h4 | h4
            · exact absurd (Finset.card_eq_zero.mp h4) hne1
            · exact absurd (Finset.card_eq_zero.mp h4) hne2
        · rw [if_neg h4]
          push_neg at h3 h4
          constructor
          · intro h
            have ht := (Option.some.inj h).symm
            refine ⟨h1, h2, ?_, ?_, ?_, ?_, ht⟩
            · intro he
              exact h4.1 (by rw [he]; exact Finset.card_empty)
            · intro he
              exact h4.2 (by rw [he]; exact Finset.card_empty)
            · have := h3.1
              omega
            · have := h3.2
              omega
          · rintro ⟨_, _, _, _, _, _, ht⟩
            rw [ht]
  · rw [if_neg h1]
    constructor
    · intro h
      exact Option.noConfusion h
    · rintro ⟨hc, _⟩
      exact absurd hc h1

/-- C5.  The derivation step of `add_knowledge` extends the knowledge
base in place and the appended part holds a sentence exactly when it is
the subset-subtraction `(B.cells - A.cells, B.count - A.count)` of an
ordered pair `(A, B)` of sentences of the pre-step knowledge base (the
snapshot, not the appended part) with `A.cells ⊆ B.cells`, different
cell sets, both cell sets non-empty and both counts positive.  The
hypothesis that counts are non-negative holds in every reachable state
(`EngineInv` makes every count a cardinality); it identifies the
source's `count == 0` skip tests with the positivity conditions. -/
theorem derivation_appends_exactly (ai : MinesweeperAI)
    (hnn : ∀ s ∈ ai.knowledge, 0 ≤ s.count) :
    ∃ tail : List Sentence,
      ai.derivationStep.knowledge = ai.knowledge ++ tail ∧
      ∀ t : Sentence, t ∈ tail ↔ ∃ A ∈ ai.knowledge, ∃ B ∈ ai.knowledge,
        A.cells ⊆ B.cells ∧ A.cells ≠ B.cells ∧ A.cells ≠ ∅ ∧ B.cells ≠ ∅ ∧
        0 < A.count ∧ 0 < B.count ∧
        t = ⟨B.cells \ A.cells, B.count - A.count⟩ := by
  refine ⟨_, rfl, ?_⟩
  intro t
  constructor
  · intro ht
    rcases List.mem_flatMap.mp ht with ⟨A, hA, ht⟩
    rcases List.mem_filterMap.mp ht with ⟨B, hB, heq⟩
    have hcond := (derive_pair_eq A B t (hnn A hA) (hnn B hB)).mp heq
    exact ⟨A, hA, B, hB, hcond⟩
  · rintro ⟨A, hA, B, hB, hcond⟩
    apply List.mem_flatMap.mpr
    refine ⟨A, hA, ?_⟩
    apply List.mem_filterMap.mpr
    exact ⟨B, hB, (derive_pair_eq A B t (hnn A hA) (hnn B hB)).mpr hcond⟩

/-- Witness for C5 at a concrete input: a knowledge base holding
`{(0,0)} = 1` and `{(0,0),(0,1)} = 2`, on which the derivation step
appends exactly `{(0,1)} = 1`. -/
theorem derivation_appends_exactly_witness :
    (∀ s ∈ (⟨2, 2, ∅, ∅, ∅, [⟨{((0, 0) : Cell)}, 1⟩,
        ⟨{((0, 0) : Cell), (0, 1)}, 2⟩]⟩ : MinesweeperAI).knowledge,
      0 ≤ s.count) ∧
    (∃ tail : List Sentence,
      (⟨2, 2, ∅, ∅, ∅, [⟨{((0, 0) : Cell)}, 1⟩,
        ⟨{((0, 0) : Cell), (0, 1)}, 2⟩]⟩ :
          MinesweeperAI).derivationStep.knowledge =
        (⟨2, 2, ∅, ∅, ∅, [⟨{((0, 0) : Cell)}, 1⟩,
          ⟨{((0, 0) : Cell), (0, 1)}, 2⟩]⟩ : MinesweeperAI).knowledge ++ tail ∧
      ∀ t : Sentence, t ∈ tail ↔ ∃ A ∈ (⟨2, 2, ∅, ∅, ∅,
          [⟨{((0, 0) : Cell)}, 1⟩, ⟨{((0, 0) : Cell), (0, 1)}, 2⟩]⟩ :
            MinesweeperAI).knowledge,
        ∃ B ∈ (⟨2, 2, ∅, ∅, ∅, [⟨{((0, 0) : Cell)}, 1⟩,
          ⟨{((0, 0) : Cell), (0, 1)}, 2⟩]⟩ : MinesweeperAI).knowledge,
        A.cells ⊆ B.cells ∧ A.cells ≠ B.cells ∧ A.cells ≠ ∅ ∧ B.cells ≠ ∅ ∧
        0 < A.count ∧ 0 < B.count ∧
        t = ⟨B.cells \ A.cells, B.count - A.count⟩) :=
  ⟨by decide, derivation_appends_exactly _ (by decide)⟩

lemma mem_rowMajor {hgt wdt : ℕ} {c : Cell} :
    c ∈ rowMajor hgt wdt ↔ c.1 < hgt ∧ c.2 < wdt := by
  unfold rowMajor
  simp only [List.mem_flatMap, List.mem_map, List.mem_range]
  constructor
  · rintro ⟨a, ha, b, hb, rfl⟩
    exact ⟨ha, hb⟩
  · rintro ⟨h1, h2⟩
    exact ⟨c.1, h1, c.2, h2, rfl⟩

/-- C9.  `make_random_move` only ever returns a board cell outside
`moves_made ∪ mines`, and it returns the no-move sentinel `none` exactly
when every board cell is in `moves_made ∪ mines`. -/
theorem random_move_contract (ai : MinesweeperAI) :
    (∀ c : Cell, ai.make_random_move = some c →
      c.1 < ai.height ∧ c.2 < ai.width ∧ c ∉ ai.moves_made ∧ c ∉ ai.mines) ∧
    (ai.make_random_move = none ↔
      ∀ c : Cell, c.1 < ai.height → c.2 < ai.width →
        c ∈ ai.moves_made ∨ c ∈ ai.mines) := by
  constructor
  · intro c hc
    unfold MinesweeperAI.make_random_move at hc
    have hmem := List.mem_of_find?_eq_some hc
    have hp := List.find?_some hc
    simp only [decide_eq_true_eq] at hp
    have hb := mem_rowMajor.mp hmem
    exact ⟨hb.1, hb.2, hp.1, hp.2⟩
  · unfold MinesweeperAI.make_random_move
    rw [List.find?_eq_none]
    constructor
    · intro hall c h1 h2
      have hnc := hall c (mem_rowMajor.mpr ⟨h1, h2⟩)
      simp only [decide_eq_true_eq] at hnc
      by_cases hm : c ∈ ai.moves_made
      · exact Or.inl hm
      · right
        by_cases hn : c ∈ ai.mines
        · exact hn
        · exact absurd ⟨hm, hn⟩ hnc
    · intro hall c hcmem
      simp only [decide_eq_true_eq]
      rintro ⟨hm, hn⟩
      have hb := mem_rowMajor.mp hcmem
      rcases hall c hb.1 hb.2 with h | h
      · exact hm h
      · exact hn h

lemma rowMajor_succ (n wdt : ℕ) :
    rowMajor (n + 1) wdt = rowMajor n wdt ++ (List.range wdt).map (fun y => ((n, y) : Cell)) := by
  unfold rowMajor
  rw [List.range_succ, List.flatMap_append]
  simp

lemma rowMajor_pairwise (hgt wdt : ℕ) :
    (rowMajor hgt wdt).Pairwise
      (fun a b : Cell => a.1 < b.1 ∨ (a.1 = b.1 ∧ a.2 < b.2)) := by
  induction hgt with
  | zero => simp [rowMajor]
  | succ n ih =>
      rw [rowMajor_succ, List.pairwise_append]
      refine ⟨ih, ?_, ?_⟩
      · rw [List.pairwise_map]
        exact (List.pairwise_lt_range wdt).imp (fun hab => Or.inr ⟨rfl, hab⟩)
      · intro a ha b hb
        rcases List.mem_map.mp hb with ⟨y, hy, rfl⟩
        exact Or.inl (mem_rowMajor.mp ha).1

lemma find?_decompose {α : Type} (p : α → Bool) :
    ∀ (l : List α) (c : α), l.find? p = some c →
      ∃ l1 l2, l = l1 ++ c :: l2 ∧ ∀ b ∈ l1, ¬ p b := by
  intro l
  induction l with
  | nil =>
      intro c h
      simp [List.find?] at h
  | cons x xs ih =>
      intro c h
      by_cases hx : p x
      · rw [List.find?_cons_of_pos xs hx] at h
        have hxc := Option.some.inj h
        subst hxc
        exact ⟨[], xs, rfl, fun b hb => absurd hb (List.not_mem_nil b)⟩
      · rw [List.find?_cons_of_neg xs hx] at h
        obtain ⟨l1, l2, hdec, hl1⟩ := ih c h
        refine ⟨x :: l1, l2, by rw [hdec, List.cons_append], ?_⟩
        intro b hb
        rcases List.mem_cons.mp hb with rfl | hb
        · exact hx
        · exact hl1 b hb

lemma random_move_some_spec (ai : MinesweeperAI) (c : Cell)
    (h : ai.make_random_move = some c) :
    c.1 < ai.height ∧ c.2 < ai.width ∧ c ∉ ai.moves_made ∧ c ∉ ai.mines ∧
      ∀ b : Cell, b.1 < ai.height → b.2 < ai.width →
        (b.1 < c.1 ∨ (b.1 = c.1 ∧ b.2 < c.2)) →
        (b ∈ ai.moves_made ∨ b ∈ ai.mines) := by
  unfold MinesweeperAI.make_random_move at h
  have hmem := List.mem_of_find?_eq_some h
  have hp := List.find?_some h
  simp only [decide_eq_true_eq] at hp
  have hb := mem_rowMajor.mp hmem
  refine ⟨hb.1, hb.2, hp.1, hp.2, ?_⟩
  intro b h1 h2 hlt
  obtain ⟨l1, l2, hdec, hl1⟩ := find?_decompose _ _ _ h
  have hbmem : b ∈ rowMajor ai.height ai.width := mem_rowMajor.mpr ⟨h1, h2⟩
  rw [hdec] at hbmem
  rcases List.mem_append.mp hbmem with hb1 | hb2
  · have hnb := hl1 b hb1
    simp only [decide_eq_true_eq] at hnb
    by_cases hm : b ∈ ai.moves_made
    · exact Or.inl hm
    · right
      by_cases hn : b ∈ ai.mines
      · exact hn
      · exact absurd ⟨hm, hn⟩ hnb
  · have hpw := rowMajor_pairwise ai.height ai.width
    rw [hdec] at hpw
    rcases List.mem_cons.mp hb2 with rfl | hb2
    · exfalso
      omega
    · have h3 := (List.pairwise_append.mp hpw).2.1
      have h4 := (List.pairwise_cons.mp h3).1 b hb2
      exfalso
      omega

/-- C10.  `make_random_move` is a pure function of the engine state
(the source reads but never writes state and uses no randomness, so the
embedding is a function and equal states give equal results); its result
is `some c` exactly when `c` is the first cell in row-major scan order
(rows `0..height-1`, columns `0..width-1` within a row) that is neither
in `moves_made` nor in `mines`. -/
theorem random_move_first_in_scan (ai : MinesweeperAI) (c : Cell) :
    ai.make_random_move = some c ↔
      (c.1 < ai.height ∧ c.2 < ai.width ∧ c ∉ ai.moves_made ∧ c ∉ ai.mines ∧
        ∀ b : Cell, b.1 < ai.height → b.2 < ai.width →
          (b.1 < c.1 ∨ (b.1 = c.1 ∧ b.2 < c.2)) →
          (b ∈ ai.moves_made ∨ b ∈ ai.mines)) := by
  constructor
  · exact random_move_some_spec ai c
  · rintro ⟨h1, h2, h3, h4, hmin⟩
    cases hfind : ai.make_random_move with
    | none =>
        exfalso
        unfold MinesweeperAI.make_random_move at hfind
        rw [List.find?_eq_none] at hfind
        have hnc := hfind c (mem_rowMajor.mpr ⟨h1, h2⟩)
        simp only [decide_eq_true_eq] at hnc
        exact hnc ⟨h3, h4⟩
    | some d =>
        have hd := random_move_some_spec ai d hfind
        have hdc : d = c := by
          rcases Nat.lt_trichotomy d.1 c.1 with hlt | heq | hgt
          · exfalso
            rcases hmin d hd.1 hd.2.1 (Or.inl hlt) with hm | hm
            · exact hd.2.2.1 hm
            · exact hd.2.2.2.1 hm
          · rcases Nat.lt_trichotomy d.2 c.2 with hlt2 | heq2 | hgt2
            · exfalso
              rcases hmin d hd.1 hd.2.1 (Or.inr ⟨heq, hlt2⟩) with hm | hm
              · exact hd.2.2.1 hm
              · exact hd.2.2.2.1 hm
            · exact Prod.ext heq heq2
            · exfalso
              rcases hd.2.2.2.2 c h1 h2 (Or.inr ⟨heq.symm, hgt2⟩) with hm | hm
              · exact h3 hm
              · exact h4 hm
          · exfalso
            rcases hd.2.2.2.2 c h1 h2 (Or.inl hgt) with hm | hm
            · exact h3 hm
            · exact h4 hm
        rw [hdc]
